import Mathlib

/-!
Verification of y-shindoh/splay_tree (src/splay_tree.hpp).

The repository holds two near-duplicate implementations of a splay tree:
an inner class `SplayTree<K,V>::Node` wrapped by the map-like handle
`SplayTree`, and a standalone `ys::Node`.  Keys and values are generic
ordered types in the source (the demo instantiates unsigned int); we embed
them as `Int`, which supports the three comparisons (`!=`, `>`, `<=`) the
code uses.  Node pointers form a strict ownership tree (no sharing, no
cycles), so a node pointer is embedded as an inductive tree value; a null
pointer is `STree.leaf`.  `c_[0]` is the left child, `c_[1]` the right
child; a child index `int i` (always 0 or 1) is embedded as `Bool`
(`false` = 0, `true` = 1), and `1-i` is `!i`.
-/

/-- A `Node<K_,V_>*`: null (`leaf`) or a node with children `c_[0]`, `c_[1]`,
key `k_` and value `v_`. -/
inductive STree where
  | leaf : STree
  | node (c0 c1 : STree) (k v : Int) : STree
deriving DecidableEq, Repr

/-- Read child `i` of a node (`n->c_[i]`); the `leaf` case models a null
dereference and never arises at the places this is used. -/
def childOf : STree → Bool → STree
  | STree.leaf, _ => STree.leaf
  | STree.node c0 _ _ _, false => c0
  | STree.node _ c1 _ _, true => c1

/-- Write child `i` of a node (`n->c_[i] = t`); the `leaf` case models a null
dereference and never arises at the places this is used. -/
def setChild : STree → Bool → STree → STree
  | STree.leaf, _, _ => STree.leaf
  | STree.node _ c1 k v, false, t => STree.node t c1 k v
  | STree.node c0 _ k v, true, t => STree.node c0 t k v

/-- Key of the root node, `none` on a null pointer. -/
def rootKeyOf : STree → Option Int
  | STree.leaf => none
  | STree.node _ _ k _ => some k

/-- Value of the root node (`node->v_`); the `leaf` case is unreachable at
the call sites, which are guarded by a null check. -/
def rootValD : STree → Int
  | STree.leaf => 0
  | STree.node _ _ _ v => v

/-- In-order traversal as the list of (key, value) entries. -/
def inorder : STree → List (Int × Int)
  | STree.leaf => []
  | STree.node c0 c1 k v => inorder c0 ++ (k, v) :: inorder c1

/-- In-order key sequence. -/
def inorderKeys (t : STree) : List Int := (inorder t).map Prod.fst

/-- The multiset of (key, value) entries held by the tree. -/
def toMS (t : STree) : Multiset (Int × Int) := (inorder t : Multiset (Int × Int))

/-- Whether some node of the tree holds key `k`. -/
def containsKey : STree → Int → Bool
  | STree.leaf, _ => false
  | STree.node c0 c1 nk _, k => containsKey c0 k || decide (k = nk) || containsKey c1 k

/-- The binary-search-tree invariant actually maintained by `Node::Add`
(section 3 of the spec, with the right-subtree bound made non-strict, since
equal keys descend to the right): every key in `c_[0]` is `<= k_`, every key
in `c_[1]` is `>= k_`. -/
def isBST : STree → Bool
  | STree.leaf => true
  | STree.node c0 c1 nk _ =>
    isBST c0 && isBST c1 && (inorderKeys c0).all (fun x => decide (x ≤ nk))
      && (inorderKeys c1).all (fun x => decide (nk ≤ x))

/-- The invariant exactly as the spec words it: left subtree `<= k_`,
right subtree strictly `> k_`. -/
def specInvariant : STree → Bool
  | STree.leaf => true
  | STree.node c0 c1 nk _ =>
    specInvariant c0 && specInvariant c1 && (inorderKeys c0).all (fun x => decide (x ≤ nk))
      && (inorderKeys c1).all (fun x => decide (nk < x))

namespace Node

/-- `SplayTree::Node::Add` (splay_tree.hpp:99-113): unbalanced BST insert;
`int i = (n->k_ <= k)` chooses the subtree, so equal keys descend right.
A null pointer becomes a fresh leaf node. -/
def Add : STree → Int → Int → STree
  | STree.leaf, k, v => STree.node STree.leaf STree.leaf k v
  | STree.node c0 c1 nk nv, k, v =>
    match decide (nk ≤ k) with
    | true => STree.node c0 (Add c1 k v) nk nv
    | false => STree.node (Add c0 k v) c1 nk nv

/-- `SplayTree::Node::Find` recursive helper (splay_tree.hpp:63-85).

In the C++, `n` is passed by value and `p` by reference: `p` aliases the
caller's local node pointer, the callee writes `p->c_[i]` and finally
reassigns `p` to its own (possibly updated) `n`.  We embed the call
`Find(n, p, k, i)` as a function of the values `n` and `p` returning
`none` on search failure (the C++ returns 0 having mutated nothing), and
`some (c, p')` on success, where `c` is the returned pointer (the old `p`
with its `c_[i]` slot overwritten by `n->c_[1-i]`) and `p'` the final value
of the caller's variable that `p` aliased.  The value duplicated between
`c` and the `!i` child slot of `p'` models a transiently shared pointer;
every caller immediately overwrites that slot of `p'` with `c`, which
resolves the aliasing.  The source computes `int j = (int)(k > n->k_)` and
recurses on `n->c_[j]` once; the match below spells the two values of `j`
out so that the recursion is structural. -/
def FindSub : STree → STree → Int → Bool → Option (STree × STree)
  | STree.leaf, _, _, _ => none
  | STree.node c0 c1 nk nv, p, k, i =>
    if k = nk then
      some (setChild p i (childOf (STree.node c0 c1 nk nv) (!i)), STree.node c0 c1 nk nv)
    else
      match decide (nk < k) with
      | true =>
        match FindSub c1 (STree.node c0 c1 nk nv) k true with
        | none => none
        | some (c, n1) =>
          let n2 := setChild n1 false c
          some (setChild p i (childOf n2 (!i)), n2)
      | false =>
        match FindSub c0 (STree.node c0 c1 nk nv) k false with
        | none => none
        | some (c, n1) =>
          let n2 := setChild n1 true c
          some (setChild p i (childOf n2 (!i)), n2)

/-- `SplayTree::Node::Find` entry point (splay_tree.hpp:174-189): takes the
root pointer by reference; returns the pair (returned pointer as a subtree
value, final value of the root variable).  On failure it returns 0 and the
root is untouched; on success the helper chain has moved the found node up
and the entry point hooks the old root side into its free child slot. -/
def Find : STree → Int → Option STree × STree
  | STree.leaf, _ => (none, STree.leaf)
  | STree.node c0 c1 nk nv, k =>
    if k = nk then (some (STree.node c0 c1 nk nv), STree.node c0 c1 nk nv)
    else
      match decide (nk < k) with
      | true =>
        match FindSub c1 (STree.node c0 c1 nk nv) k true with
        | none => (none, STree.node c0 c1 nk nv)
        | some (c, n1) =>
          let n2 := setChild n1 false c
          (some n2, n2)
      | false =>
        match FindSub c0 (STree.node c0 c1 nk nv) k false with
        | none => (none, STree.node c0 c1 nk nv)
        | some (c, n1) =>
          let n2 := setChild n1 true c
          (some n2, n2)

/-- The leftmost-descendant splice loop of `SplayTree::Node::DeleteRoot`
(splay_tree.hpp:127-140): walks `c_[0]` pointers from the given node keeping
the parent, unhooks the leftmost node (its parent adopts its right child),
and reports that node's key, value, and the remaining subtree.  When the
given node has no left child the loop body never runs (`p` stays null) and
the node itself is the result, keeping its right child. -/
def spliceMin : STree → Int × Int × STree
  | STree.leaf => (0, 0, STree.leaf)
  | STree.node STree.leaf r k v => (k, v, r)
  | STree.node (STree.node a b xk xv) r k v =>
    match spliceMin (STree.node a b xk xv) with
    | (mk, mv, l1) => (mk, mv, STree.node l1 r k v)

/-- `SplayTree::Node::DeleteRoot` (splay_tree.hpp:120-148): with no right
child, the left child becomes the root; otherwise the leftmost descendant of
the right subtree is spliced out and takes over the old root's two subtrees
(the right one with itself removed). -/
def DeleteRoot : STree → STree
  | STree.leaf => STree.leaf
  | STree.node c0 STree.leaf _ _ => c0
  | STree.node c0 (STree.node a b rk rv) _ _ =>
    match spliceMin (STree.node a b rk rv) with
    | (mk, mv, r1) => STree.node c0 r1 mk mv

end Node

namespace NodeV2

/-- `ys::Node::Add`, the standalone variant (splay_tree.hpp:460-474). -/
def Add : STree → Int → Int → STree
  | STree.leaf, k, v => STree.node STree.leaf STree.leaf k v
  | STree.node c0 c1 nk nv, k, v =>
    match decide (nk ≤ k) with
    | true => STree.node c0 (Add c1 k v) nk nv
    | false => STree.node (Add c0 k v) c1 nk nv

/-- `ys::Node::Find` recursive helper of the standalone variant
(splay_tree.hpp:420-446).  Unlike the inner-class variant it signals a miss
through a `bool& r` flag instead of a null return; the triple returned here
is (final value of `r`, returned pointer, final value of the variable `p`
aliased).  On a miss it returns `n` (base case: the null `c`) and leaves
`p` untouched. -/
def FindSub : STree → STree → Int → Bool → Bool × STree × STree
  | STree.leaf, p, _, _ => (false, STree.leaf, p)
  | STree.node c0 c1 nk nv, p, k, i =>
    if k = nk then
      (true, setChild p i (childOf (STree.node c0 c1 nk nv) (!i)), STree.node c0 c1 nk nv)
    else
      match decide (nk < k) with
      | true =>
        match FindSub c1 (STree.node c0 c1 nk nv) k true with
        | (false, _, _) => (false, STree.node c0 c1 nk nv, p)
        | (true, c, n1) =>
          let n2 := setChild n1 false c
          (true, setChild p i (childOf n2 (!i)), n2)
      | false =>
        match FindSub c0 (STree.node c0 c1 nk nv) k false with
        | (false, _, _) => (false, STree.node c0 c1 nk nv, p)
        | (true, c, n1) =>
          let n2 := setChild n1 true c
          (true, setChild p i (childOf n2 (!i)), n2)

/-- `ys::Node::Find` entry point of the standalone variant
(splay_tree.hpp:535-552): returns 0 when the flag reports a miss, leaving
the root untouched. -/
def Find : STree → Int → Option STree × STree
  | STree.leaf, _ => (none, STree.leaf)
  | STree.node c0 c1 nk nv, k =>
    if k = nk then (some (STree.node c0 c1 nk nv), STree.node c0 c1 nk nv)
    else
      match decide (nk < k) with
      | true =>
        match FindSub c1 (STree.node c0 c1 nk nv) k true with
        | (false, _, _) => (none, STree.node c0 c1 nk nv)
        | (true, c, n1) =>
          let n2 := setChild n1 false c
          (some n2, n2)
      | false =>
        match FindSub c0 (STree.node c0 c1 nk nv) k false with
        | (false, _, _) => (none, STree.node c0 c1 nk nv)
        | (true, c, n1) =>
          let n2 := setChild n1 true c
          (some n2, n2)

/-- The splice loop of `ys::Node::DeleteRoot` (splay_tree.hpp:488-501). -/
def spliceMin : STree → Int × Int × STree
  | STree.leaf => (0, 0, STree.leaf)
  | STree.node STree.leaf r k v => (k, v, r)
  | STree.node (STree.node a b xk xv) r k v =>
    match spliceMin (STree.node a b xk xv) with
    | (mk, mv, l1) => (mk, mv, STree.node l1 r k v)

/-- `ys::Node::DeleteRoot`, the standalone variant (splay_tree.hpp:481-509). -/
def DeleteRoot : STree → STree
  | STree.leaf => STree.leaf
  | STree.node c0 STree.leaf _ _ => c0
  | STree.node c0 (STree.node a b rk rv) _ _ =>
    match spliceMin (STree.node a b rk rv) with
    | (mk, mv, r1) => STree.node c0 r1 mk mv

end NodeV2

/-- The handle class `ys::SplayTree` (splay_tree.hpp:26-366): the root
pointer `tree_` and the element counter `length_` (a `size_t`, so counter
arithmetic is modulo 2^64). -/
structure SplayTree where
  tree : STree
  length : Nat
deriving DecidableEq, Repr

/-- The default-constructed handle: null root, zero count. -/
def SplayTree.empty : SplayTree := ⟨STree.leaf, 0⟩

/-- `SplayTree::add` (splay_tree.hpp:241-247). -/
def SplayTree.add (s : SplayTree) (k v : Int) : SplayTree :=
  ⟨Node.Add s.tree k v, (s.length + 1) % 2 ^ 64⟩

/-- `SplayTree::remove` (splay_tree.hpp:255-268): splay the key to the root
with `Node::Find`; if found, capture the value, delete the root, decrement
the counter; otherwise return the caller-configured `INVALID_V` sentinel
(passed here as `iv`). -/
def SplayTree.remove (s : SplayTree) (k iv : Int) : Int × SplayTree :=
  match Node.Find s.tree k with
  | (some nd, t1) => (rootValD nd, ⟨Node.DeleteRoot t1, (s.length + (2 ^ 64 - 1)) % 2 ^ 64⟩)
  | (none, t1) => (iv, ⟨t1, s.length⟩)

/-- `SplayTree::find` (splay_tree.hpp:276-283). -/
def SplayTree.find (s : SplayTree) (k iv : Int) : Int × SplayTree :=
  match Node.Find s.tree k with
  | (some nd, t1) => (rootValD nd, ⟨t1, s.length⟩)
  | (none, t1) => (iv, ⟨t1, s.length⟩)

/-- `SplayTree::root_key` (splay_tree.hpp:290-295): the source reads
`if (tree_) return INVALID_K; return tree_->k_;`, so a non-null root yields
the sentinel (`ik` here) and a null root is dereferenced — the latter is
undefined behaviour, embedded as `none`. -/
def SplayTree.rootKey (s : SplayTree) (ik : Int) : Option Int :=
  match s.tree with
  | STree.node _ _ _ _ => some ik
  | STree.leaf => none

/-- `SplayTree::min_key` (splay_tree.hpp:302-310): same inverted check; the
leftmost-descent loop only runs when `tree_` is null, where its condition
`node->c_[0]` dereferences the null pointer at once (`none`). -/
def SplayTree.minKey (s : SplayTree) (ik : Int) : Option Int :=
  match s.tree with
  | STree.node _ _ _ _ => some ik
  | STree.leaf => none

/-- `SplayTree::max_key` (splay_tree.hpp:317-325): same shape as `min_key`
with the loop walking `c_[1]` pointers. -/
def SplayTree.maxKey (s : SplayTree) (ik : Int) : Option Int :=
  match s.tree with
  | STree.node _ _ _ _ => some ik
  | STree.leaf => none

/-- `SplayTree::size` (splay_tree.hpp:331-335). -/
def SplayTree.size (s : SplayTree) : Nat := s.length

/-- A tree built by a sequence of `Node::Add` calls starting from null. -/
def addAll (ps : List (Int × Int)) : STree :=
  ps.foldl (fun t p => Node.Add t p.1 p.2) STree.leaf

/-- A handle built by a sequence of `SplayTree::add` calls on a fresh handle. -/
def addSeq (ps : List (Int × Int)) : SplayTree :=
  ps.foldl (fun s p => s.add p.1 p.2) SplayTree.empty

/-- One call of the public mutating interface, for stating properties over
interleavings of operations.  The sentinel argument of `remove` and `find`
does not influence the resulting state, so it is fixed to 0 here. -/
inductive Op where
  | addOp (k v : Int)
  | removeOp (k : Int)
  | findOp (k : Int)
deriving DecidableEq, Repr

/-- Whether the operation is an insertion of key `k`. -/
def addsKey (k : Int) : Op → Bool
  | Op.addOp j _ => decide (j = k)
  | _ => false

/-- Whether the operation is a removal of key `k`. -/
def isRemoveKey (k : Int) : Op → Bool
  | Op.removeOp j => decide (j = k)
  | _ => false

/-- Apply one operation to a handle, keeping the resulting state. -/
def execOp (s : SplayTree) : Op → SplayTree
  | Op.addOp k v => s.add k v
  | Op.removeOp k => (s.remove k 0).2
  | Op.findOp k => (s.find k 0).2

/-- Apply a list of operations in order. -/
def execOps (s : SplayTree) (ops : List Op) : SplayTree := ops.foldl execOp s

/-- The §8 concrete-scenario tree: keys [7,3,11,1,5,9,13,0,2,4,6,8,10,12,14]
with values 0..14, inserted in that order. -/
def sample15 : STree :=
  addAll [(7, 0), (3, 1), (11, 2), (1, 3), (5, 4), (9, 5), (13, 6), (0, 7), (2, 8), (4, 9),
    (6, 10), (8, 11), (10, 12), (12, 13), (14, 14)]

/-! Basic facts about the traversal, the key predicate and the invariant. -/

@[simp] theorem inorder_leaf : inorder STree.leaf = [] := rfl

@[simp] theorem inorder_node (c0 c1 : STree) (k v : Int) :
    inorder (STree.node c0 c1 k v) = inorder c0 ++ (k, v) :: inorder c1 := rfl

@[simp] theorem inorderKeys_leaf : inorderKeys STree.leaf = [] := rfl

@[simp] theorem inorderKeys_node (c0 c1 : STree) (k v : Int) :
    inorderKeys (STree.node c0 c1 k v) = inorderKeys c0 ++ k :: inorderKeys c1 := by
  simp [inorderKeys, inorder]

@[simp] theorem childOf_false (c0 c1 : STree) (k v : Int) :
    childOf (STree.node c0 c1 k v) false = c0 := rfl

@[simp] theorem childOf_true (c0 c1 : STree) (k v : Int) :
    childOf (STree.node c0 c1 k v) true = c1 := rfl

@[simp] theorem setChild_false (c0 c1 t : STree) (k v : Int) :
    setChild (STree.node c0 c1 k v) false t = STree.node t c1 k v := rfl

@[simp] theorem setChild_true (c0 c1 t : STree) (k v : Int) :
    setChild (STree.node c0 c1 k v) true t = STree.node c0 t k v := rfl

theorem containsKey_iff_mem (t : STree) (k : Int) :
    containsKey t k = true ↔ k ∈ inorderKeys t := by
  induction t with
  | leaf => simp [containsKey]
  | node c0 c1 nk nv ih0 ih1 =>
    simp [containsKey, ih0, ih1, or_assoc]

theorem isBST_node_iff (c0 c1 : STree) (nk nv : Int) :
    isBST (STree.node c0 c1 nk nv) = true ↔
      isBST c0 = true ∧ isBST c1 = true ∧ (∀ x ∈ inorderKeys c0, x ≤ nk)
        ∧ (∀ x ∈ inorderKeys c1, nk ≤ x) := by
  simp [isBST, List.all_eq_true, and_assoc]

/-! Facts about the recursive search helper `Node::FindSub`. -/

/-- A successful helper call hands up a node whose key is the searched key:
the only success source is the `k == n->k_` branch, and the node it returns
through the parent reference is what every enclosing frame keeps handing up. -/
theorem findSub_some_key : ∀ (n p : STree) (i : Bool) (c q : STree) (k : Int),
    Node.FindSub n p k i = some (c, q) → ∃ a b qv, q = STree.node a b k qv := by
  intro n
  induction n with
  | leaf => intro p i c q k h; simp [Node.FindSub] at h
  | node c0 c1 nk nv ih0 ih1 =>
    intro p i c q k h
    by_cases hk : k = nk
    · simp only [Node.FindSub, if_pos hk, Option.some.injEq, Prod.mk.injEq] at h
      exact ⟨c0, c1, nv, by rw [hk]; exact h.2.symm⟩
    · simp only [Node.FindSub, if_neg hk] at h
      rcases hlt : decide (nk < k) with _ | _
      · simp only [hlt] at h
        rcases hs : Node.FindSub c0 (STree.node c0 c1 nk nv) k false with _ | ⟨c2, n1⟩
        · rw [hs] at h; simp at h
        · rw [hs] at h
          obtain ⟨a, b, qv, rfl⟩ := ih0 _ _ _ _ _ hs
          simp only [setChild_true, Option.some.injEq, Prod.mk.injEq] at h
          exact ⟨a, c2, qv, h.2.symm⟩
      · simp only [hlt] at h
        rcases hs : Node.FindSub c1 (STree.node c0 c1 nk nv) k true with _ | ⟨c2, n1⟩
        · rw [hs] at h; simp at h
        · rw [hs] at h
          obtain ⟨a, b, qv, rfl⟩ := ih1 _ _ _ _ _ hs
          simp only [setChild_false, Option.some.injEq, Prod.mk.injEq] at h
          exact ⟨c2, b, qv, h.2.symm⟩

/-- A miss mutates nothing: when no node of the subtree holds the key, the
helper fails before reaching any of its assignment statements. -/
theorem findSub_fail : ∀ (n p : STree) (i : Bool) (k : Int),
    containsKey n k = false → Node.FindSub n p k i = none := by
  intro n
  induction n with
  | leaf => intro p i k _; rfl
  | node c0 c1 nk nv ih0 ih1 =>
    intro p i k h
    simp only [containsKey, Bool.or_eq_false_iff] at h
    obtain ⟨⟨h0, hk⟩, h1⟩ := h
    have hk2 : ¬ k = nk := by simpa using hk
    simp only [Node.FindSub, if_neg hk2]
    rcases hlt : decide (nk < k) with _ | _
    · simp only [ih0 _ _ _ h0]
    · simp only [ih1 _ _ _ h1]

/-- Each successful helper frame performs one rotation-like step whose net
effect, once the caller has overwritten the transiently duplicated child
slot, leaves the in-order entry sequence of the parent's subtree unchanged.
The hypothesis `childOf p i = n` records how the helper is actually invoked:
on the child in direction `i` of the node the parent reference designates. -/
theorem findSub_inorder : ∀ (n p : STree) (i : Bool) (c q : STree) (k : Int),
    childOf p i = n → Node.FindSub n p k i = some (c, q) →
      inorder (setChild q (!i) c) = inorder p := by
  intro n
  induction n with
  | leaf => intro p i c q k _ h; simp [Node.FindSub] at h
  | node c0 c1 nk nv ih0 ih1 =>
    intro p i c q k hp h
    obtain ⟨p0, p1, pk, pv, rfl⟩ : ∃ p0 p1 pk pv, p = STree.node p0 p1 pk pv := by
      cases p with
      | leaf => cases i <;> simp [childOf] at hp
      | node p0 p1 pk pv => exact ⟨p0, p1, pk, pv, rfl⟩
    by_cases hk : k = nk
    · simp only [Node.FindSub, if_pos hk, Option.some.injEq, Prod.mk.injEq] at h
      obtain ⟨hc, hq⟩ := h
      subst hc
      subst hq
      cases i
      · simp only [childOf_false] at hp
        subst hp
        simp [List.append_assoc]
      · simp only [childOf_true] at hp
        subst hp
        simp [List.append_assoc]
    · simp only [Node.FindSub, if_neg hk] at h
      rcases hlt : decide (nk < k) with _ | _
      · simp only [hlt] at h
        rcases hs : Node.FindSub c0 (STree.node c0 c1 nk nv) k false with _ | ⟨c2, n1⟩
        · rw [hs] at h; simp at h
        · rw [hs] at h
          have ihe := ih0 (STree.node c0 c1 nk nv) false c2 n1 k (by simp) hs
          obtain ⟨a, b, qv, rfl⟩ := findSub_some_key _ _ _ _ _ _ hs
          simp only [setChild_true, Option.some.injEq, Prod.mk.injEq] at h
          obtain ⟨hc, hq⟩ := h
          subst hc
          subst hq
          simp only [Bool.not_false, setChild_true, inorder_node] at ihe
          cases i
          · simp only [childOf_false] at hp
            subst hp
            simp only [Bool.not_false, childOf_true, setChild_false, setChild_true, inorder_node]
            rw [← ihe]
            simp [List.append_assoc]
          · simp only [childOf_true] at hp
            subst hp
            simp only [Bool.not_true, childOf_false, setChild_false, setChild_true, inorder_node]
            rw [← ihe]
            simp [List.append_assoc]
      · simp only [hlt] at h
        rcases hs : Node.FindSub c1 (STree.node c0 c1 nk nv) k true with _ | ⟨c2, n1⟩
        · rw [hs] at h; simp at h
        · rw [hs] at h
          have ihe := ih1 (STree.node c0 c1 nk nv) true c2 n1 k (by simp) hs
          obtain ⟨a, b, qv, rfl⟩ := findSub_some_key _ _ _ _ _ _ hs
          simp only [setChild_false, Option.some.injEq, Prod.mk.injEq] at h
          obtain ⟨hc, hq⟩ := h
          subst hc
          subst hq
          simp only [Bool.not_true, setChild_false, inorder_node] at ihe
          cases i
          · simp only [childOf_false] at hp
            subst hp
            simp only [Bool.not_false, childOf_true, setChild_false, setChild_true, inorder_node]
            rw [← ihe]
            simp [List.append_assoc]
          · simp only [childOf_true] at hp
            subst hp
            simp only [Bool.not_true, childOf_false, setChild_false, setChild_true, inorder_node]
            rw [← ihe]
            simp [List.append_assoc]

/-- Under the BST invariant, the helper finds every key the subtree holds:
the comparison `k > n->k_` always steers the descent into the unique subtree
that can hold `k`. -/
theorem findSub_found : ∀ (n p : STree) (i : Bool) (k : Int),
    isBST n = true → containsKey n k = true →
      ∃ c q, Node.FindSub n p k i = some (c, q) := by
  intro n
  induction n with
  | leaf => intro p i k _ hc; simp [containsKey] at hc
  | node c0 c1 nk nv ih0 ih1 =>
    intro p i k hb hc
    rw [isBST_node_iff] at hb
    obtain ⟨hb0, hb1, hle, hge⟩ := hb
    by_cases hk : k = nk
    · have heq : Node.FindSub (STree.node c0 c1 nk nv) p k i =
          some (setChild p i (childOf (STree.node c0 c1 nk nv) (!i)), STree.node c0 c1 nk nv) := by
        simp only [Node.FindSub, if_pos hk]
      exact ⟨_, _, heq⟩
    · rw [containsKey_iff_mem] at hc
      simp only [inorderKeys_node, List.mem_append, List.mem_cons] at hc
      by_cases hlt : nk < k
      · have hc1 : containsKey c1 k = true := by
          rw [containsKey_iff_mem]
          rcases hc with hm | hm | hm
          · exact absurd (hle k hm) (by omega)
          · exact absurd hm hk
          · exact hm
        obtain ⟨c2, n1, hs⟩ := ih1 (STree.node c0 c1 nk nv) true k hb1 hc1
        have heq : Node.FindSub (STree.node c0 c1 nk nv) p k i =
            some (setChild p i (childOf (setChild n1 false c2) (!i)), setChild n1 false c2) := by
          simp only [Node.FindSub, if_neg hk, decide_eq_true hlt, hs]
        exact ⟨_, _, heq⟩
      · have hc0 : containsKey c0 k = true := by
          rw [containsKey_iff_mem]
          rcases hc with hm | hm | hm
          · exact hm
          · exact absurd hm hk
          · have := hge k hm
            omega
        obtain ⟨c2, n1, hs⟩ := ih0 (STree.node c0 c1 nk nv) false k hb0 hc0
        have hd : decide (nk < k) = false := by simp [hlt]
        have heq : Node.FindSub (STree.node c0 c1 nk nv) p k i =
            some (setChild p i (childOf (setChild n1 true c2) (!i)), setChild n1 true c2) := by
          simp only [Node.FindSub, if_neg hk, hd, hs]
        exact ⟨_, _, heq⟩

/-! Facts about the `Node::Find` entry point. -/

/-- The entry point never changes the in-order entry sequence: a miss leaves
the tree untouched, and a hit only rewires child links along the search
path. -/
theorem find_inorder (t : STree) (k : Int) : inorder (Node.Find t k).2 = inorder t := by
  cases t with
  | leaf => rfl
  | node c0 c1 nk nv =>
    by_cases hk : k = nk
    · simp [Node.Find, if_pos hk]
    · simp only [Node.Find, if_neg hk]
      rcases hlt : decide (nk < k) with _ | _
      · rcases hs : Node.FindSub c0 (STree.node c0 c1 nk nv) k false with _ | ⟨c2, n1⟩
        · simp
        · have := findSub_inorder c0 (STree.node c0 c1 nk nv) false c2 n1 k (by simp) hs
          simpa using this
      · rcases hs : Node.FindSub c1 (STree.node c0 c1 nk nv) k true with _ | ⟨c2, n1⟩
        · simp
        · have := findSub_inorder c1 (STree.node c0 c1 nk nv) true c2 n1 k (by simp) hs
          simpa using this

/-- A miss at the entry point returns null and leaves the root (and by
`findSub_fail` the whole structure) exactly as it was. -/
theorem find_fail (t : STree) (k : Int) (h : containsKey t k = false) :
    Node.Find t k = (none, t) := by
  cases t with
  | leaf => rfl
  | node c0 c1 nk nv =>
    simp only [containsKey, Bool.or_eq_false_iff] at h
    obtain ⟨⟨h0, hk⟩, h1⟩ := h
    have hk2 : ¬ k = nk := by simpa using hk
    simp only [Node.Find, if_neg hk2]
    rcases hlt : decide (nk < k) with _ | _
    · simp only [findSub_fail c0 _ _ _ h0]
    · simp only [findSub_fail c1 _ _ _ h1]

/-- On a hit the entry point returns the node that ascended to the top, and
stores the same node into the root variable; that node carries the searched
key. -/
theorem find_success_shape (t : STree) (k : Int) (nd t1 : STree)
    (h : Node.Find t k = (some nd, t1)) :
    nd = t1 ∧ ∃ a b v, t1 = STree.node a b k v := by
  cases t with
  | leaf => simp [Node.Find] at h
  | node c0 c1 nk nv =>
    by_cases hk : k = nk
    · simp only [Node.Find, if_pos hk, Prod.mk.injEq, Option.some.injEq] at h
      exact ⟨h.1.symm.trans h.2, c0, c1, nv, by rw [hk]; exact h.2.symm⟩
    · simp only [Node.Find, if_neg hk] at h
      rcases hlt : decide (nk < k) with _ | _
      · simp only [hlt] at h
        rcases hs : Node.FindSub c0 (STree.node c0 c1 nk nv) k false with _ | ⟨c2, n1⟩
        · rw [hs] at h; simp at h
        · rw [hs] at h
          obtain ⟨a, b, qv, rfl⟩ := findSub_some_key _ _ _ _ _ _ hs
          simp only [setChild_true, Prod.mk.injEq, Option.some.injEq] at h
          exact ⟨h.1.symm.trans h.2, a, c2, qv, h.2.symm⟩
      · simp only [hlt] at h
        rcases hs : Node.FindSub c1 (STree.node c0 c1 nk nv) k true with _ | ⟨c2, n1⟩
        · rw [hs] at h; simp at h
        · rw [hs] at h
          obtain ⟨a, b, qv, rfl⟩ := findSub_some_key _ _ _ _ _ _ hs
          simp only [setChild_false, Prod.mk.injEq, Option.some.injEq] at h
          exact ⟨h.1.symm.trans h.2, c2, b, qv, h.2.symm⟩

/-- Under the BST invariant the entry point finds every present key. -/
theorem find_found (t : STree) (k : Int) (hb : isBST t = true)
    (hc : containsKey t k = true) :
    ∃ t1, Node.Find t k = (some t1, t1) ∧ ∃ a b v, t1 = STree.node a b k v := by
  rcases hf : Node.Find t k with ⟨r, t1⟩
  rcases r with _ | nd
  · exfalso
    cases t with
    | leaf => simp [containsKey] at hc
    | node c0 c1 nk nv =>
      by_cases hk : k = nk
      · simp [Node.Find, if_pos hk] at hf
      · rw [isBST_node_iff] at hb
        obtain ⟨hb0, hb1, hle, hge⟩ := hb
        simp only [Node.Find, if_neg hk] at hf
        rcases hlt2 : decide (nk < k) with _ | _
        · have hc0 : containsKey c0 k = true := by
            rw [containsKey_iff_mem]
            rw [containsKey_iff_mem] at hc
            simp only [inorderKeys_node, List.mem_append, List.mem_cons] at hc
            rcases hc with hm | hm | hm
            · exact hm
            · exact absurd hm hk
            · have h2 := hge k hm
              have h3 : ¬ nk < k := by simpa using hlt2
              omega
          obtain ⟨c2, n1, hs⟩ := findSub_found c0 (STree.node c0 c1 nk nv) false k hb0 hc0
          rw [hlt2, hs] at hf
          simp at hf
        · have hc1 : containsKey c1 k = true := by
            rw [containsKey_iff_mem]
            rw [containsKey_iff_mem] at hc
            simp only [inorderKeys_node, List.mem_append, List.mem_cons] at hc
            have h3 : nk < k := by simpa using hlt2
            rcases hc with hm | hm | hm
            · have h2 := hle k hm
              omega
            · exact absurd hm hk
            · exact hm
          obtain ⟨c2, n1, hs⟩ := findSub_found c1 (STree.node c0 c1 nk nv) true k hb1 hc1
          rw [hlt2, hs] at hf
          simp at hf
  · obtain ⟨rfl, a, b, v, rfl⟩ := find_success_shape t k nd t1 hf
    exact ⟨STree.node a b k v, rfl, a, b, v, rfl⟩

/-! Facts about `Node::Add` and `Node::DeleteRoot`. -/

/-- Insertion adds exactly the one new entry: the in-order entries of the
new tree are a permutation of the new entry plus the old entries. -/
theorem add_inorder_perm : ∀ (t : STree) (k v : Int),
    List.Perm (inorder (Node.Add t k v)) ((k, v) :: inorder t) := by
  intro t
  induction t with
  | leaf => intro k v; simp [Node.Add]
  | node c0 c1 nk nv ih0 ih1 =>
    intro k v
    simp only [Node.Add]
    rcases hc : decide (nk ≤ k) with _ | _
    · simpa using (ih0 k v).append_right ((nk, nv) :: inorder c1)
    · simp only [inorder_node]
      refine (((ih1 k v).cons (nk, nv)).append_left (inorder c0)).trans ?_
      have hm := @List.perm_middle (Int × Int) (k, v) (inorder c0 ++ [(nk, nv)]) (inorder c1)
      simpa using hm

/-- Key-sequence form of `add_inorder_perm`. -/
theorem add_keys_perm (t : STree) (k v : Int) :
    List.Perm (inorderKeys (Node.Add t k v)) (k :: inorderKeys t) := by
  simpa [inorderKeys] using (add_inorder_perm t k v).map Prod.fst

/-- Insertion preserves the BST invariant (non-strict on the right, which is
what the `n->k_ <= k` descent rule maintains for duplicate keys). -/
theorem add_isBST : ∀ (t : STree) (k v : Int),
    isBST t = true → isBST (Node.Add t k v) = true := by
  intro t
  induction t with
  | leaf => intro k v _; simp [Node.Add, isBST, inorderKeys, inorder]
  | node c0 c1 nk nv ih0 ih1 =>
    intro k v h
    rw [isBST_node_iff] at h
    obtain ⟨hb0, hb1, hle, hge⟩ := h
    simp only [Node.Add]
    rcases hc : decide (nk ≤ k) with _ | _
    · have hklt : ¬ nk ≤ k := by simpa using hc
      rw [isBST_node_iff]
      refine ⟨ih0 k v hb0, hb1, ?_, hge⟩
      intro x hx
      rw [(add_keys_perm c0 k v).mem_iff, List.mem_cons] at hx
      rcases hx with rfl | hx
      · omega
      · exact hle x hx
    · have hkle : nk ≤ k := by simpa using hc
      rw [isBST_node_iff]
      refine ⟨hb0, ih1 k v hb1, hle, ?_⟩
      intro x hx
      rw [(add_keys_perm c1 k v).mem_iff, List.mem_cons] at hx
      rcases hx with rfl | hx
      · exact hkle
      · exact hge x hx

/-- The splice loop removes exactly the leftmost entry: consing the reported
entry back onto the remaining subtree's in-order sequence restores the
original sequence. -/
theorem spliceMin_inorder : ∀ (a b : STree) (rk rv : Int),
    ((Node.spliceMin (STree.node a b rk rv)).1, (Node.spliceMin (STree.node a b rk rv)).2.1)
        :: inorder (Node.spliceMin (STree.node a b rk rv)).2.2
      = inorder (STree.node a b rk rv) := by
  intro a
  induction a with
  | leaf => intro b rk rv; simp [Node.spliceMin]
  | node a0 a1 ak av ih0 ih1 =>
    intro b rk rv
    have ihe := ih0 a1 ak av
    rcases hsm : Node.spliceMin (STree.node a0 a1 ak av) with ⟨mk, mv, l1⟩
    rw [hsm] at ihe
    dsimp only at ihe
    simp only [Node.spliceMin, hsm]
    show (mk, mv) :: (inorder l1 ++ (rk, rv) :: inorder b)
        = inorder (STree.node a0 a1 ak av) ++ (rk, rv) :: inorder b
    rw [← ihe]
    simp

/-- `DeleteRoot` removes exactly the root entry: the in-order entry sequence
of the result is the concatenation of the two subtrees' sequences. -/
theorem deleteRoot_inorder (l r : STree) (k v : Int) :
    inorder (Node.DeleteRoot (STree.node l r k v)) = inorder l ++ inorder r := by
  cases r with
  | leaf => simp [Node.DeleteRoot]
  | node a b rk rv =>
    have hse := spliceMin_inorder a b rk rv
    rcases hsm : Node.spliceMin (STree.node a b rk rv) with ⟨mk, mv, r1⟩
    rw [hsm] at hse
    dsimp only at hse
    simp only [Node.DeleteRoot, hsm]
    rw [← hse]
    simp

/-- The recursive invariant is the same thing as sortedness of the in-order
key sequence. -/
theorem isBST_iff_sorted : ∀ (t : STree),
    isBST t = true ↔ List.Sorted (fun a b => a ≤ b) (inorderKeys t) := by
  intro t
  induction t with
  | leaf => simp [isBST]
  | node c0 c1 nk nv ih0 ih1 =>
    rw [isBST_node_iff, ih0, ih1]
    simp only [inorderKeys_node, List.Sorted, List.pairwise_append, List.pairwise_cons,
      List.mem_cons]
    constructor
    · rintro ⟨h0, h1, hle, hge⟩
      refine ⟨h0, ⟨hge, h1⟩, ?_⟩
      rintro x hx y (rfl | hy)
      · exact hle x hx
      · exact le_trans (hle x hx) (hge y hy)
    · rintro ⟨h0, ⟨hge, h1⟩, hcross⟩
      exact ⟨h0, h1, fun x hx => hcross x hx nk (Or.inl rfl), hge⟩

/-! Equivalence of the standalone `ys::Node` variant with the inner-class
variant. -/

theorem addV2_eq : ∀ (t : STree) (k v : Int), NodeV2.Add t k v = Node.Add t k v := by
  intro t
  induction t with
  | leaf => intro k v; rfl
  | node c0 c1 nk nv ih0 ih1 =>
    intro k v
    simp only [NodeV2.Add, Node.Add]
    rcases hc : decide (nk ≤ k) with _ | _
    · simp only [ih0]
    · simp only [ih1]

theorem spliceMinV2_eq : ∀ (t : STree), NodeV2.spliceMin t = Node.spliceMin t := by
  intro t
  induction t with
  | leaf => rfl
  | node c0 c1 nk nv ih0 ih1 =>
    cases c0 with
    | leaf => rfl
    | node a b xk xv =>
      rcases hsm : Node.spliceMin (STree.node a b xk xv) with ⟨mk, mv, l1⟩
      simp only [NodeV2.spliceMin, Node.spliceMin, ih0, hsm]

theorem deleteRootV2_eq : ∀ (t : STree), NodeV2.DeleteRoot t = Node.DeleteRoot t := by
  intro t
  cases t with
  | leaf => rfl
  | node c0 c1 nk nv =>
    cases c1 with
    | leaf => rfl
    | node a b rk rv =>
      rcases hsm : Node.spliceMin (STree.node a b rk rv) with ⟨mk, mv, r1⟩
      simp only [NodeV2.DeleteRoot, Node.DeleteRoot, spliceMinV2_eq, hsm]

/-- The two recursive search helpers behave identically: the inner-class
variant signals a miss with a null return, the standalone one with the
`bool& r` flag, and on a hit both return the same pointer and leave the same
value in the parent reference. -/
theorem findSubV2_eq : ∀ (n p : STree) (i : Bool) (k : Int),
    (Node.FindSub n p k i = none → (NodeV2.FindSub n p k i).1 = false) ∧
    (∀ c q, Node.FindSub n p k i = some (c, q) → NodeV2.FindSub n p k i = (true, c, q)) := by
  intro n
  induction n with
  | leaf =>
    intro p i k
    exact ⟨fun _ => rfl, fun c q h => by simp [Node.FindSub] at h⟩
  | node c0 c1 nk nv ih0 ih1 =>
    intro p i k
    by_cases hk : k = nk
    · constructor
      · intro h
        simp only [Node.FindSub, if_pos hk] at h
        exact Option.noConfusion h
      · intro c q h
        simp only [Node.FindSub, if_pos hk, Option.some.injEq, Prod.mk.injEq] at h
        simp only [NodeV2.FindSub, if_pos hk]
        rw [h.1, h.2]
    · rcases hlt : decide (nk < k) with _ | _
      · obtain ⟨ihn, ihs⟩ := ih0 (STree.node c0 c1 nk nv) false k
        rcases hs : Node.FindSub c0 (STree.node c0 c1 nk nv) k false with _ | ⟨c2, n1⟩
        · have h2 := ihn hs
          rcases hv : NodeV2.FindSub c0 (STree.node c0 c1 nk nv) k false with ⟨r, cv, qv⟩
          rw [hv] at h2
          dsimp only at h2
          subst h2
          constructor
          · intro _
            simp only [NodeV2.FindSub, if_neg hk, hlt, hv]
          · intro c q h
            simp only [Node.FindSub, if_neg hk, hlt, hs] at h
            exact Option.noConfusion h
        · have h2 := ihs c2 n1 hs
          constructor
          · intro h
            simp only [Node.FindSub, if_neg hk, hlt, hs] at h
            exact Option.noConfusion h
          · intro c q h
            simp only [Node.FindSub, if_neg hk, hlt, hs, Option.some.injEq,
              Prod.mk.injEq] at h
            simp only [NodeV2.FindSub, if_neg hk, hlt, h2]
            rw [h.1, h.2]
      · obtain ⟨ihn, ihs⟩ := ih1 (STree.node c0 c1 nk nv) true k
        rcases hs : Node.FindSub c1 (STree.node c0 c1 nk nv) k true with _ | ⟨c2, n1⟩
        · have h2 := ihn hs
          rcases hv : NodeV2.FindSub c1 (STree.node c0 c1 nk nv) k true with ⟨r, cv, qv⟩
          rw [hv] at h2
          dsimp only at h2
          subst h2
          constructor
          · intro _
            simp only [NodeV2.FindSub, if_neg hk, hlt, hv]
          · intro c q h
            simp only [Node.FindSub, if_neg hk, hlt, hs] at h
            exact Option.noConfusion h
        · have h2 := ihs c2 n1 hs
          constructor
          · intro h
            simp only [Node.FindSub, if_neg hk, hlt, hs] at h
            exact Option.noConfusion h
          · intro c q h
            simp only [Node.FindSub, if_neg hk, hlt, hs, Option.some.injEq,
              Prod.mk.injEq] at h
            simp only [NodeV2.FindSub, if_neg hk, hlt, h2]
            rw [h.1, h.2]

theorem findV2_eq (t : STree) (k : Int) : NodeV2.Find t k = Node.Find t k := by
  cases t with
  | leaf => rfl
  | node c0 c1 nk nv =>
    by_cases hk : k = nk
    · simp only [NodeV2.Find, Node.Find, if_pos hk]
    · rcases hlt : decide (nk < k) with _ | _
      · obtain ⟨ihn, ihs⟩ := findSubV2_eq c0 (STree.node c0 c1 nk nv) false k
        rcases hs : Node.FindSub c0 (STree.node c0 c1 nk nv) k false with _ | ⟨c2, n1⟩
        · have h2 := ihn hs
          rcases hv : NodeV2.FindSub c0 (STree.node c0 c1 nk nv) k false with ⟨r, cv, qv⟩
          rw [hv] at h2
          dsimp only at h2
          subst h2
          simp only [NodeV2.Find, Node.Find, if_neg hk, hlt, hv, hs]
        · have h2 := ihs c2 n1 hs
          simp only [NodeV2.Find, Node.Find, if_neg hk, hlt, hs, h2]
      · obtain ⟨ihn, ihs⟩ := findSubV2_eq c1 (STree.node c0 c1 nk nv) true k
        rcases hs : Node.FindSub c1 (STree.node c0 c1 nk nv) k true with _ | ⟨c2, n1⟩
        · have h2 := ihn hs
          rcases hv : NodeV2.FindSub c1 (STree.node c0 c1 nk nv) k true with ⟨r, cv, qv⟩
          rw [hv] at h2
          dsimp only at h2
          subst h2
          simp only [NodeV2.Find, Node.Find, if_neg hk, hlt, hv, hs]
        · have h2 := ihs c2 n1 hs
          simp only [NodeV2.Find, Node.Find, if_neg hk, hlt, hs, h2]

/-! Facts about the handle operations, and preservation of state invariants
across sequences of public operations. -/

theorem containsKey_false_iff (t : STree) (k : Int) :
    containsKey t k = false ↔ k ∉ inorderKeys t := by
  rw [← containsKey_iff_mem]
  cases h : containsKey t k <;> simp [h]

theorem find_keys (t : STree) (k : Int) :
    inorderKeys (Node.Find t k).2 = inorderKeys t := by
  simp [inorderKeys, find_inorder]

/-- The handle `find` keeps the counter and stores the root `Node::Find`
leaves behind. -/
theorem find_handle (s : SplayTree) (k iv : Int) :
    (SplayTree.find s k iv).2.tree = (Node.Find s.tree k).2 ∧
      (SplayTree.find s k iv).2.length = s.length := by
  rcases hf : Node.Find s.tree k with ⟨r0, t1⟩
  rcases r0 with _ | nd <;> simp [SplayTree.find, hf]

/-- The handle `remove` either misses (keeping the root `Node::Find` left)
or deletes the root of the splayed tree, whose root node carries the
searched key. -/
theorem remove_cases (s : SplayTree) (j iv : Int) :
    ((Node.Find s.tree j).1 = none ∧ (s.remove j iv).2.tree = (Node.Find s.tree j).2) ∨
    (∃ l r v1, Node.Find s.tree j = (some (STree.node l r j v1), STree.node l r j v1) ∧
      (s.remove j iv).2.tree = Node.DeleteRoot (STree.node l r j v1)) := by
  rcases hf : Node.Find s.tree j with ⟨r0, t1⟩
  rcases r0 with _ | nd
  · exact Or.inl ⟨rfl, by simp [SplayTree.remove, hf]⟩
  · obtain ⟨rfl, l, r, v1, rfl⟩ := find_success_shape s.tree j nd t1 hf
    exact Or.inr ⟨l, r, v1, rfl, by simp [SplayTree.remove, hf]⟩

/-- Sortedness of the key sequence survives deleting the root of a splayed
tree whose in-order sequence matches the original's. -/
theorem sorted_deleteRoot (l r : STree) (j v1 : Int)
    (hs : List.Sorted (fun a b => a ≤ b) (inorderKeys (STree.node l r j v1))) :
    List.Sorted (fun a b => a ≤ b) (inorderKeys (Node.DeleteRoot (STree.node l r j v1))) := by
  have hk : inorderKeys (Node.DeleteRoot (STree.node l r j v1))
      = inorderKeys l ++ inorderKeys r := by
    simp [inorderKeys, deleteRoot_inorder]
  rw [hk]
  rw [inorderKeys_node] at hs
  have hsub : List.Sublist (inorderKeys l ++ inorderKeys r)
      (inorderKeys l ++ j :: inorderKeys r) :=
    List.Sublist.append_left (List.sublist_cons_self j (inorderKeys r)) (inorderKeys l)
  exact List.Pairwise.sublist hsub hs

/-- One public operation that is not an insertion of key `k` keeps the BST
invariant and keeps key `k` absent. -/
theorem execOp_absent (k : Int) (s : SplayTree) (op : Op)
    (hb : isBST s.tree = true) (hc : containsKey s.tree k = false)
    (hop : addsKey k op = false) :
    isBST (execOp s op).tree = true ∧ containsKey (execOp s op).tree k = false := by
  cases op with
  | addOp j w =>
    have hj : ¬ j = k := by simpa [addsKey] using hop
    refine ⟨add_isBST _ _ _ hb, ?_⟩
    rw [containsKey_false_iff]
    rw [containsKey_false_iff] at hc
    show k ∉ inorderKeys (Node.Add s.tree j w)
    rw [(add_keys_perm s.tree j w).mem_iff, List.mem_cons]
    rintro (rfl | hm)
    · exact hj rfl
    · exact hc hm
  | findOp j =>
    have ht : (execOp s (Op.findOp j)).tree = (Node.Find s.tree j).2 :=
      (find_handle s j 0).1
    rw [ht]
    constructor
    · rw [isBST_iff_sorted, find_keys]
      rw [isBST_iff_sorted] at hb
      exact hb
    · rw [containsKey_false_iff, find_keys]
      rw [containsKey_false_iff] at hc
      exact hc
  | removeOp j =>
    rcases remove_cases s j 0 with ⟨_, ht⟩ | ⟨l, r, v1, hf, ht⟩
    · replace ht : (execOp s (Op.removeOp j)).tree = (Node.Find s.tree j).2 := ht
      rw [ht]
      constructor
      · rw [isBST_iff_sorted, find_keys]
        rw [isBST_iff_sorted] at hb
        exact hb
      · rw [containsKey_false_iff, find_keys]
        rw [containsKey_false_iff] at hc
        exact hc
    · replace ht : (execOp s (Op.removeOp j)).tree = Node.DeleteRoot (STree.node l r j v1) := ht
      rw [ht]
      have hio : inorder (STree.node l r j v1) = inorder s.tree := by
        have := find_inorder s.tree j
        rw [hf] at this
        exact this
      have hkeys : inorderKeys (STree.node l r j v1) = inorderKeys s.tree := by
        simp [inorderKeys, hio]
      constructor
      · apply (isBST_iff_sorted _).mpr
        apply sorted_deleteRoot
        rw [hkeys]
        exact (isBST_iff_sorted _).mp hb
      · rw [containsKey_false_iff]
        rw [containsKey_false_iff] at hc
        intro hm
        apply hc
        rw [← hkeys, inorderKeys_node]
        have : inorderKeys (Node.DeleteRoot (STree.node l r j v1))
            = inorderKeys l ++ inorderKeys r := by
          simp [inorderKeys, deleteRoot_inorder]
        rw [this] at hm
        rcases List.mem_append.mp hm with hm | hm
        · exact List.mem_append.mpr (Or.inl hm)
        · exact List.mem_append.mpr (Or.inr (List.mem_cons_of_mem _ hm))

/-- One public operation that neither inserts nor removes key `k` keeps the
BST invariant, keeps the entry `(k, v)` present, and keeps `k` unique. -/
theorem execOp_present (k v : Int) (s : SplayTree) (op : Op)
    (hb : isBST s.tree = true) (hm : (k, v) ∈ inorder s.tree)
    (hcnt : (inorderKeys s.tree).count k = 1)
    (hop1 : addsKey k op = false) (hop2 : isRemoveKey k op = false) :
    isBST (execOp s op).tree = true ∧ (k, v) ∈ inorder (execOp s op).tree
      ∧ (inorderKeys (execOp s op).tree).count k = 1 := by
  cases op with
  | addOp j w =>
    have hj : ¬ j = k := by simpa [addsKey] using hop1
    refine ⟨add_isBST _ _ _ hb, ?_, ?_⟩
    · show (k, v) ∈ inorder (Node.Add s.tree j w)
      rw [(add_inorder_perm s.tree j w).mem_iff]
      exact List.mem_cons_of_mem _ hm
    · show (inorderKeys (Node.Add s.tree j w)).count k = 1
      rw [(add_keys_perm s.tree j w).count_eq]
      have hkj : ¬ k = j := fun h => hj h.symm
      simp [List.count_cons, hcnt, hkj, hj]
  | findOp j =>
    have ht : (execOp s (Op.findOp j)).tree = (Node.Find s.tree j).2 :=
      (find_handle s j 0).1
    rw [ht]
    refine ⟨?_, ?_, ?_⟩
    · rw [isBST_iff_sorted, find_keys]
      rw [isBST_iff_sorted] at hb
      exact hb
    · rw [find_inorder]
      exact hm
    · rw [find_keys]
      exact hcnt
  | removeOp j =>
    have hj : ¬ j = k := by simpa [isRemoveKey] using hop2
    rcases remove_cases s j 0 with ⟨_, ht⟩ | ⟨l, r, v1, hf, ht⟩
    · replace ht : (execOp s (Op.removeOp j)).tree = (Node.Find s.tree j).2 := ht
      rw [ht]
      refine ⟨?_, ?_, ?_⟩
      · rw [isBST_iff_sorted, find_keys]
        rw [isBST_iff_sorted] at hb
        exact hb
      · rw [find_inorder]
        exact hm
      · rw [find_keys]
        exact hcnt
    · replace ht : (execOp s (Op.removeOp j)).tree = Node.DeleteRoot (STree.node l r j v1) := ht
      rw [ht]
      have hio : inorder (STree.node l r j v1) = inorder s.tree := by
        have := find_inorder s.tree j
        rw [hf] at this
        exact this
      have hkeys : inorderKeys (STree.node l r j v1) = inorderKeys s.tree := by
        simp [inorderKeys, hio]
      have hdk : inorderKeys (Node.DeleteRoot (STree.node l r j v1))
          = inorderKeys l ++ inorderKeys r := by
        simp [inorderKeys, deleteRoot_inorder]
      refine ⟨?_, ?_, ?_⟩
      · apply (isBST_iff_sorted _).mpr
        apply sorted_deleteRoot
        rw [hkeys]
        exact (isBST_iff_sorted _).mp hb
      · rw [deleteRoot_inorder]
        have hm2 : (k, v) ∈ inorder l ++ (j, v1) :: inorder r := by
          rw [← inorder_node, hio]
          exact hm
        rcases List.mem_append.mp hm2 with h2 | h2
        · exact List.mem_append.mpr (Or.inl h2)
        · rcases List.mem_cons.mp h2 with h3 | h3
          · exfalso
            have h4 : k = j := by
              have h5 := congrArg Prod.fst h3
              simpa using h5
            exact hj h4.symm
          · exact List.mem_append.mpr (Or.inr h3)
      · rw [hdk, List.count_append]
        have hc2 : (inorderKeys l ++ j :: inorderKeys r).count k = 1 := by
          rw [← inorderKeys_node, hkeys]
          exact hcnt
        have hkj : k ≠ j := fun h => hj h.symm
        rw [List.count_append, List.count_cons_of_ne hkj] at hc2
        exact hc2

/-- Folding `execOp` over operations that never insert key `k` keeps the
BST invariant and keeps `k` absent. -/
theorem execOps_absent (k : Int) : ∀ (ops : List Op) (s : SplayTree),
    isBST s.tree = true → containsKey s.tree k = false →
    ops.all (fun op => !(addsKey k op)) = true →
    isBST (execOps s ops).tree = true ∧ containsKey (execOps s ops).tree k = false := by
  intro ops
  induction ops with
  | nil => intro s hb hc _; exact ⟨hb, hc⟩
  | cons op tl ih =>
    intro s hb hc hall
    rw [List.all_cons, Bool.and_eq_true] at hall
    have hop : addsKey k op = false := by simpa using hall.1
    obtain ⟨hb2, hc2⟩ := execOp_absent k s op hb hc hop
    exact ih (execOp s op) hb2 hc2 hall.2

/-- Folding `execOp` over operations that neither insert nor remove key `k`
keeps the BST invariant, the entry `(k, v)`, and the uniqueness of `k`. -/
theorem execOps_present (k v : Int) : ∀ (ops : List Op) (s : SplayTree),
    isBST s.tree = true → (k, v) ∈ inorder s.tree →
    (inorderKeys s.tree).count k = 1 →
    ops.all (fun op => !(addsKey k op) && !(isRemoveKey k op)) = true →
    isBST (execOps s ops).tree = true ∧ (k, v) ∈ inorder (execOps s ops).tree
      ∧ (inorderKeys (execOps s ops).tree).count k = 1 := by
  intro ops
  induction ops with
  | nil => intro s hb hm hcnt _; exact ⟨hb, hm, hcnt⟩
  | cons op tl ih =>
    intro s hb hm hcnt hall
    rw [List.all_cons, Bool.and_eq_true] at hall
    have hop1 : addsKey k op = false := by
      have := hall.1
      simp only [Bool.and_eq_true, Bool.not_eq_true'] at this
      exact this.1
    have hop2 : isRemoveKey k op = false := by
      have := hall.1
      simp only [Bool.and_eq_true, Bool.not_eq_true'] at this
      exact this.2
    obtain ⟨hb2, hm2, hcnt2⟩ := execOp_present k v s op hb hm hcnt hop1 hop2
    exact ih (execOp s op) hb2 hm2 hcnt2 hall.2

/-- In a list of entries whose key sequence counts `k` exactly once, two
entries with key `k` carry the same value. -/
theorem mem_count_one_unique : ∀ (l : List (Int × Int)) (k v w : Int),
    (k, v) ∈ l → (k, w) ∈ l → (l.map Prod.fst).count k = 1 → v = w := by
  intro l
  induction l with
  | nil => intro k v w hv _ _; simp at hv
  | cons x tl ih =>
    intro k v w hv hw hcnt
    rcases x with ⟨xk, xv⟩
    by_cases hxk : xk = k
    · subst hxk
      have hcnt0 : (tl.map Prod.fst).count xk = 0 := by
        rw [List.map_cons, List.count_cons_self] at hcnt
        omega
      have hnot : xk ∉ tl.map Prod.fst := List.count_eq_zero.mp hcnt0
      have hv2 : v = xv := by
        rcases List.mem_cons.mp hv with h | h
        · have := congrArg Prod.snd h
          simpa using this
        · exact absurd (List.mem_map_of_mem Prod.fst h) hnot
      have hw2 : w = xv := by
        rcases List.mem_cons.mp hw with h | h
        · have := congrArg Prod.snd h
          simpa using this
        · exact absurd (List.mem_map_of_mem Prod.fst h) hnot
      rw [hv2, hw2]
    · have hne : k ≠ xk := fun h => hxk h.symm
      have hv2 : (k, v) ∈ tl := by
        rcases List.mem_cons.mp hv with h | h
        · exfalso
          apply hne
          have := congrArg Prod.fst h
          simpa using this
        · exact h
      have hw2 : (k, w) ∈ tl := by
        rcases List.mem_cons.mp hw with h | h
        · exfalso
          apply hne
          have := congrArg Prod.fst h
          simpa using this
        · exact h
      have hcnt2 : (tl.map Prod.fst).count k = 1 := by
        rw [List.map_cons, List.count_cons_of_ne hne] at hcnt
        exact hcnt
      exact ih k v w hv2 hw2 hcnt2

/-- When the tree is a BST holding `(k, v)` and no other node has key `k`,
the handle `find(k)` returns `v`. -/
theorem find_unique_value (t : STree) (k v iv : Int) (len : Nat)
    (hb : isBST t = true) (hm : (k, v) ∈ inorder t)
    (hcnt : (inorderKeys t).count k = 1) :
    (SplayTree.find ⟨t, len⟩ k iv).1 = v := by
  have hc : containsKey t k = true := by
    rw [containsKey_iff_mem]
    exact List.mem_map_of_mem Prod.fst hm
  obtain ⟨t1, hf, a, b, w, rfl⟩ := find_found t k hb hc
  have hio := find_inorder t k
  rw [hf] at hio
  dsimp only at hio
  have hmw : (k, w) ∈ inorder t := by
    rw [← hio]
    simp
  have hvw : v = w := mem_count_one_unique (inorder t) k v w hm hmw hcnt
  rw [hvw]
  simp [SplayTree.find, hf, rootValD]

/-- Folding `Node::Add` preserves the BST invariant from any start tree. -/
theorem addAll_isBST : ∀ (ps : List (Int × Int)) (t : STree), isBST t = true →
    isBST (ps.foldl (fun t2 p => Node.Add t2 p.1 p.2) t) = true := by
  intro ps
  induction ps with
  | nil => intro t h; exact h
  | cons p tl ih => intro t h; exact ih _ (add_isBST _ _ _ h)

/-- The handle built by `addSeq` carries exactly the tree `addAll` builds. -/
theorem addSeq_tree : ∀ (ps : List (Int × Int)) (s : SplayTree),
    (ps.foldl (fun s2 p => s2.add p.1 p.2) s).tree
      = ps.foldl (fun t p => Node.Add t p.1 p.2) s.tree := by
  intro ps
  induction ps with
  | nil => intro s; rfl
  | cons p tl ih => intro s; exact ih _

/-! Claim theorems. -/

/-- C1: the `root_key()`, `min_key()` and `max_key()` accessors return the
`INVALID_K` sentinel precisely when the tree is non-empty, and reach the
null-root dereference (embedded as `none`) precisely when the tree is
empty — the emptiness checks are inverted exactly as the spec describes. -/
theorem accessors_emptiness_inverted (s : SplayTree) (ik : Int) :
    (s.rootKey ik = some ik ↔ s.tree ≠ STree.leaf)
      ∧ (s.rootKey ik = none ↔ s.tree = STree.leaf)
      ∧ (s.minKey ik = some ik ↔ s.tree ≠ STree.leaf)
      ∧ (s.minKey ik = none ↔ s.tree = STree.leaf)
      ∧ (s.maxKey ik = some ik ↔ s.tree ≠ STree.leaf)
      ∧ (s.maxKey ik = none ↔ s.tree = STree.leaf) := by
  rcases s with ⟨t, len⟩
  cases t <;> simp [SplayTree.rootKey, SplayTree.minKey, SplayTree.maxKey]

/-- C2: on a BST that holds key `k`, `Find(root, k)` succeeds, returns the
node that ascended to the top, reassigns the root to that same node, and the
key at the new root equals `k`. -/
theorem find_success_splays_to_root (t : STree) (k : Int) (hb : isBST t = true)
    (hc : containsKey t k = true) :
    ∃ t1, Node.Find t k = (some t1, t1) ∧ rootKeyOf t1 = some k := by
  obtain ⟨t1, hf, a, b, v, rfl⟩ := find_found t k hb hc
  exact ⟨_, hf, rfl⟩

/-- C2 witness: after a successful `find(8)` on the §8 scenario tree, the
returned node is the new root and its key is 8. -/
theorem find_success_splays_to_root_witness :
    (Node.Find sample15 8).1 = some (Node.Find sample15 8).2
      ∧ rootKeyOf (Node.Find sample15 8).2 = some 8 := by
  obtain ⟨t1, hf, hk⟩ := find_success_splays_to_root sample15 8 (by decide) (by decide)
  rw [hf]
  exact ⟨rfl, hk⟩

/-- C3: when no node holds key `k`, `Find(root, k)` returns the not-found
result and the tree — every child link, key, value and the root pointer —
is exactly as before; the handle-level `find` then returns the sentinel and
leaves the whole handle state unchanged. -/
theorem find_miss_is_noop (t : STree) (k iv : Int) (len : Nat)
    (h : containsKey t k = false) :
    Node.Find t k = (none, t)
      ∧ SplayTree.find ⟨t, len⟩ k iv = (iv, ⟨t, len⟩) := by
  have hff := find_fail t k h
  exact ⟨hff, by simp [SplayTree.find, hff]⟩

/-- C3 witness: `find(100)` misses on the §8 scenario tree and changes
nothing. -/
theorem find_miss_is_noop_witness :
    Node.Find sample15 100 = (none, sample15)
      ∧ SplayTree.find ⟨sample15, 15⟩ 100 999 = (999, ⟨sample15, 15⟩) :=
  find_miss_is_noop sample15 100 999 15 (by decide)

/-- C4 counterexample: the invariant exactly as claimed (right subtree
strictly greater) is already violated by the two-call insert sequence
`Add 5, Add 5`, because the duplicate key 5 descends to the right. -/
theorem add_bst_invariant_cex :
    specInvariant (addAll [(5, 1), (5, 2)]) = false := by decide

/-- C4 amended: every tree built by a sequence of `Add` calls satisfies the
invariant with the right-subtree bound non-strict — every key in
`children[0]` is `<= n.key` and every key in `children[1]` is `>= n.key` —
and an equal key always descends into the right subtree at the first tie. -/
theorem add_bst_invariant (ps : List (Int × Int)) :
    isBST (addAll ps) = true
      ∧ ∀ (c0 c1 : STree) (nk nv v : Int),
        Node.Add (STree.node c0 c1 nk nv) nk v = STree.node c0 (Node.Add c1 nk v) nk nv := by
  constructor
  · exact addAll_isBST ps STree.leaf rfl
  · intro c0 c1 nk nv v
    simp [Node.Add]

/-- C5: after any sequence of `add(key, value)` calls on a fresh handle, the
in-order key sequence of the resulting tree is non-decreasing. -/
theorem addSeq_inorder_sorted (ps : List (Int × Int)) :
    List.Sorted (fun a b => a ≤ b) (inorderKeys (addSeq ps).tree) := by
  have ht : (addSeq ps).tree = addAll ps := addSeq_tree ps SplayTree.empty
  rw [ht]
  exact (isBST_iff_sorted _).mp (addAll_isBST ps STree.leaf rfl)

/-- C6: on a BST holding key `k` (with the counter positive and below the
`size_t` wrap), `remove(k)` returns the value of a node holding `k`, removes
exactly that one entry from the tree's multiset, and the counter drops by
exactly one; on an absent key it returns the `INVALID_V` sentinel and leaves
tree and counter unchanged. -/
theorem remove_spec (t : STree) (len : Nat) (k iv : Int) :
    (isBST t = true → containsKey t k = true → 0 < len → len < 2 ^ 64 →
      (k, (SplayTree.remove ⟨t, len⟩ k iv).1) ∈ toMS t
        ∧ toMS t = (k, (SplayTree.remove ⟨t, len⟩ k iv).1)
            ::ₘ toMS (SplayTree.remove ⟨t, len⟩ k iv).2.tree
        ∧ (SplayTree.remove ⟨t, len⟩ k iv).2.length = len - 1)
    ∧ (containsKey t k = false → SplayTree.remove ⟨t, len⟩ k iv = (iv, ⟨t, len⟩)) := by
  constructor
  · intro hb hc hlen hlen2
    obtain ⟨t1, hf, l, r, w, rfl⟩ := find_found t k hb hc
    have hio := find_inorder t k
    rw [hf] at hio
    dsimp only at hio
    have hrem : SplayTree.remove ⟨t, len⟩ k iv
        = (w, ⟨Node.DeleteRoot (STree.node l r k w), (len + (2 ^ 64 - 1)) % 2 ^ 64⟩) := by
      simp [SplayTree.remove, hf, rootValD]
    rw [hrem]
    refine ⟨?_, ?_, ?_⟩
    · show (k, w) ∈ toMS t
      rw [toMS, ← hio]
      simp
    · show toMS t = (k, w) ::ₘ toMS (Node.DeleteRoot (STree.node l r k w))
      rw [toMS, toMS, deleteRoot_inorder, ← hio]
      simp only [inorder_node]
      rw [Multiset.cons_coe, Multiset.coe_eq_coe]
      exact List.perm_middle
    · show (len + (2 ^ 64 - 1)) % 2 ^ 64 = len - 1
      have hN : (2 : Nat) ^ 64 = 18446744073709551616 := by norm_num
      rw [hN]
      rw [hN] at hlen2
      omega
  · intro hc
    have hff := find_fail t k hc
    simp [SplayTree.remove, hff]

/-- C6 witness: on the §8 scenario tree (15 entries), `remove(8)` returns an
entry of the tree, shrinks its multiset by exactly that entry, and drops the
counter to 14; `remove(100)` returns the sentinel and changes nothing. -/
theorem remove_spec_witness :
    ((8 : Int), (SplayTree.remove ⟨sample15, 15⟩ 8 999).1) ∈ toMS sample15
      ∧ toMS sample15 = ((8 : Int), (SplayTree.remove ⟨sample15, 15⟩ 8 999).1)
          ::ₘ toMS (SplayTree.remove ⟨sample15, 15⟩ 8 999).2.tree
      ∧ (SplayTree.remove ⟨sample15, 15⟩ 8 999).2.length = 15 - 1
      ∧ SplayTree.remove ⟨sample15, 15⟩ 100 999 = (999, ⟨sample15, 15⟩) := by
  have h := (remove_spec sample15 15 8 999).1 (by decide) (by decide) (by decide)
    (by norm_num)
  exact ⟨h.1, h.2.1, h.2.2, (remove_spec sample15 15 100 999).2 (by decide)⟩

/-- C7: `DeleteRoot` removes exactly the root node: with no right child the
left child becomes the new root; in general the in-order key sequence
afterwards is the old sequence with the root's single entry removed, and
with a right child present the new root is the leftmost descendant of the
right subtree (the head of its in-order key sequence). -/
theorem deleteRoot_removes_exactly_root (l a b : STree) (k v rk rv : Int) :
    Node.DeleteRoot (STree.node l STree.leaf k v) = l
      ∧ inorderKeys (Node.DeleteRoot (STree.node l (STree.node a b rk rv) k v))
          = inorderKeys l ++ inorderKeys (STree.node a b rk rv)
      ∧ rootKeyOf (Node.DeleteRoot (STree.node l (STree.node a b rk rv) k v))
          = (inorderKeys (STree.node a b rk rv)).head? := by
  refine ⟨rfl, ?_, ?_⟩
  · simp [inorderKeys, deleteRoot_inorder]
  · have hse := spliceMin_inorder a b rk rv
    rcases hsm : Node.spliceMin (STree.node a b rk rv) with ⟨mk, mv, r1⟩
    rw [hsm] at hse
    dsimp only at hse
    simp only [Node.DeleteRoot, hsm]
    show some mk = (inorderKeys (STree.node a b rk rv)).head?
    simp only [inorderKeys]
    rw [← hse]
    simp

/-- C8 counterexample: insert key 5 with value 10, then key 5 again with
value 20, never remove anything; `find(5)` returns 10, not the inserted and
never-removed value 20 — the round-trip claim fails once duplicate keys are
involved. -/
theorem find_roundtrip_cex :
    (SplayTree.find (SplayTree.add (SplayTree.add SplayTree.empty 5 10) 5 20) 5 99).1 = 10
      ∧ (10 : Int) ≠ 20 := by
  exact ⟨by decide, by decide⟩

/-- C8 amended: for any key `k` inserted with value `v` by `add(k, v)` and
not subsequently removed, a later `find(k)` returns `v`, quantified over
every interleaving of other operations that does not remove key `k` and —
the restriction the counterexample forces — does not insert key `k` a second
time (with duplicates of `k`, `find(k)` may return the value of a different
node holding `k`). -/
theorem find_roundtrip_unique_key (ops1 ops2 : List Op) (k v iv : Int)
    (h1 : ops1.all (fun op => !(addsKey k op)) = true)
    (h2 : ops2.all (fun op => !(addsKey k op) && !(isRemoveKey k op)) = true) :
    (SplayTree.find (execOps ((execOps SplayTree.empty ops1).add k v) ops2) k iv).1 = v := by
  obtain ⟨hb1, hc1⟩ := execOps_absent k ops1 SplayTree.empty rfl rfl h1
  have hb2 : isBST ((execOps SplayTree.empty ops1).add k v).tree = true :=
    add_isBST _ _ _ hb1
  have hm2 : (k, v) ∈ inorder ((execOps SplayTree.empty ops1).add k v).tree := by
    show (k, v) ∈ inorder (Node.Add (execOps SplayTree.empty ops1).tree k v)
    rw [(add_inorder_perm _ k v).mem_iff]
    exact List.mem_cons_self _ _
  have hcnt2 : (inorderKeys ((execOps SplayTree.empty ops1).add k v).tree).count k = 1 := by
    show (inorderKeys (Node.Add (execOps SplayTree.empty ops1).tree k v)).count k = 1
    rw [(add_keys_perm _ k v).count_eq, List.count_cons_self,
      List.count_eq_zero.mpr ((containsKey_false_iff _ _).mp hc1)]
  obtain ⟨hb3, hm3, hcnt3⟩ :=
    execOps_present k v ops2 ((execOps SplayTree.empty ops1).add k v) hb2 hm2 hcnt2 h2
  rcases hfinal : execOps ((execOps SplayTree.empty ops1).add k v) ops2 with ⟨t3, len3⟩
  rw [hfinal] at hb3 hm3 hcnt3
  exact find_unique_value t3 k v iv len3 hb3 hm3 hcnt3

/-- C8 witness: key 5 inserted once with value 42 among unrelated adds,
removes and finds; the later `find(5)` returns 42. -/
theorem find_roundtrip_unique_key_witness :
    (SplayTree.find (execOps ((execOps SplayTree.empty
        [Op.addOp 3 7, Op.removeOp 5, Op.findOp 3]).add 5 42)
      [Op.addOp 9 1, Op.findOp 5, Op.removeOp 3]) 5 0).1 = 42 :=
  find_roundtrip_unique_key [Op.addOp 3 7, Op.removeOp 5, Op.findOp 3]
    [Op.addOp 9 1, Op.findOp 5, Op.removeOp 3] 5 42 0 (by decide) (by decide)

/-- C9: the inner-class `SplayTree::Node` operations and the standalone
`ys::Node` operations are behaviourally equal: `Add`, `DeleteRoot` and
`Find` produce identical trees and identical found/not-found outcomes, even
though one `Find` helper signals a miss by a null return and the other by a
`bool` flag. -/
theorem two_variants_agree (t : STree) (k v : Int) :
    NodeV2.Add t k v = Node.Add t k v
      ∧ NodeV2.DeleteRoot t = Node.DeleteRoot t
      ∧ NodeV2.Find t k = Node.Find t k :=
  ⟨addV2_eq t k v, deleteRootV2_eq t, findV2_eq t k⟩

/-- C10: a successful `Find` neither creates nor destroys a node and changes
no key or value: the multiset of (key, value) entries after the call is the
multiset before it. -/
theorem find_hit_preserves_entries (t : STree) (k : Int) (nd t1 : STree)
    (h : Node.Find t k = (some nd, t1)) : toMS t1 = toMS t := by
  have hio := find_inorder t k
  rw [h] at hio
  dsimp only at hio
  simp [toMS, hio]

/-- C10 witness: the hit `find(8)` on the §8 scenario tree preserves the
entry multiset. -/
theorem find_hit_preserves_entries_witness :
    toMS (Node.Find sample15 8).2 = toMS sample15 :=
  find_hit_preserves_entries sample15 8 (Node.Find sample15 8).2 (Node.Find sample15 8).2
    (by decide)
